import Mathlib

/-!
Verification of the Voice_Agents repository: a multimodal knowledge-base
retrieval engine (hierarchical chunking, dense/sparse hybrid retrieval with
Reciprocal Rank Fusion, change-tracked ingestion, context expansion) together
with the React overlay frontend (RPC overlay handler, card width mapping,
parameter grid layout).

The frontend components are embedded from src/components/AvatarRoom.tsx and
src/components/ManufacturingOverlay.tsx.  The knowledge-base pipeline itself
(KB_pipeline/kb_manager.py, KB_pipeline/ingest.py) is documented in the
repository but its implementation files are not part of the source snapshot,
so the pipeline definitions below are modelled from the specification text
(each such definition carries a doc comment beginning Modelled from the spec).

Recursive list workers are written with an explicit fuel argument equal to the
input length, so every definition is structurally recursive and evaluates by
kernel reduction on concrete inputs.
-/

-- ============================================================
-- Definitions
-- ============================================================

/-- First index of an element in a list (0-based first occurrence; length of
the list when absent).  Used to express ranks and first-appearance order. -/
def firstIdx {α : Type} [DecidableEq α] (a : α) : List α → ℕ
  | [] => 0
  | x :: xs => if x = a then 0 else firstIdx a xs + 1

-- ---------- C1/C2: Reciprocal Rank Fusion (Hybrid Retriever) ----------

/-- Modelled from the spec: one list contribution of Reciprocal Rank Fusion.
Walks a ranked list carrying the rank of the current head; returns
1 / (k + rank) at the first occurrence of the chunk id and 0 when the chunk
does not appear in the list. -/
def rrfContribAux (k : ℚ) (c : ℕ) (rank : ℕ) : List ℕ → ℚ
  | [] => 0
  | x :: xs => if x = c then 1 / (k + (rank : ℚ)) else rrfContribAux k c (rank + 1) xs

/-- Modelled from the spec: contribution of a single ranked list, ranks
starting at 1. -/
def rrfContrib (k : ℚ) (c : ℕ) (l : List ℕ) : ℚ :=
  rrfContribAux k c 1 l

/-- Modelled from the spec: 1-based rank of a chunk in a ranked list. -/
def rankIn (l : List ℕ) (c : ℕ) : ℕ :=
  firstIdx c l + 1

/-- Modelled from the spec: fused RRF score over the dense list D and the
sparse list S; a chunk absent from a list receives no contribution from it. -/
def rrfScore (k : ℚ) (D S : List ℕ) (c : ℕ) : ℚ :=
  rrfContrib k c D + rrfContrib k c S

/-- Modelled from the spec: rank used by the fused tie-breaks; chunks absent
from a list are ordered after every present chunk. -/
def rankOrEnd (l : List ℕ) (c : ℕ) : ℕ :=
  if c ∈ l then rankIn l c else l.length + 1

/-- Modelled from the spec: the fused ordering comparator of step 4 of the
Hybrid Retriever: fused score descending, ties broken by better dense rank,
then better sparse rank, then chunk id. -/
def fusedLeBool (k : ℚ) (D S : List ℕ) (a b : ℕ) : Bool :=
  decide (rrfScore k D S b < rrfScore k D S a) ||
  (decide (rrfScore k D S a = rrfScore k D S b) &&
    (decide (rankOrEnd D a < rankOrEnd D b) ||
      (decide (rankOrEnd D a = rankOrEnd D b) &&
        (decide (rankOrEnd S a < rankOrEnd S b) ||
          (decide (rankOrEnd S a = rankOrEnd S b) && decide (a ≤ b))))))

-- ---------- C8: frontend showOverlay RPC handler ----------

/-- Overlay payload shape from ManufacturingOverlay.tsx (OverlayData).  The
layout type arrives from an unchecked JSON payload, hence a plain string; the
data record is modelled as an association list. -/
structure OverlayData where
  layoutType : String
  title : String
  context : Option String
  source : Option String
  data : List (String × String)
deriving DecidableEq

/-- Structured form of the JSON object returned by the RPC handlers in
AvatarRoom.tsx before stringification. -/
structure RpcResponse where
  success : Bool
  error : Option String
deriving DecidableEq

/-- handleShowOverlay from AvatarRoom.tsx: JSON.parse of the payload is an
external effect, modelled by its result (some parsed value, or none on a
parse exception).  On success the overlay state is set to the parsed value;
on failure the state is left unchanged and an error response is returned. -/
def handleShowOverlay (parsed : Option OverlayData) (overlayState : Option OverlayData) :
    Option OverlayData × RpcResponse :=
  match parsed with
  | some ov => (some ov, ⟨true, none⟩)
  | none => (overlayState, ⟨false, some "Invalid payload"⟩)

/-- handleHideOverlay from AvatarRoom.tsx: clears the overlay state. -/
def handleHideOverlay (_overlayState : Option OverlayData) :
    Option OverlayData × RpcResponse :=
  (none, ⟨true, none⟩)

-- ---------- C9: card width mapping ----------

/-- cardWidths from ManufacturingOverlay.tsx. -/
def cardWidths : List (String × String) :=
  [("single-value", "350px"),
   ("quick-lookup", "400px"),
   ("range-display", "420px"),
   ("multi-parameter", "460px"),
   ("lookup-with-context", "480px"),
   ("alert-information", "500px"),
   ("parameter-grid", "550px"),
   ("comparison-table", "650px")]

/-- The cardWidth computation in ManufacturingOverlay: table lookup with the
450px fallback for any layout type outside the mapping. -/
def cardWidth (lt : String) : String :=
  match cardWidths.lookup lt with
  | some w => w
  | none => "450px"

/-- Width of the rendered card for a given overlay: determined by the layout
type alone. -/
def overlayCardWidth (ov : OverlayData) : String :=
  cardWidth ov.layoutType

-- ---------- C10: parameter grid rows ----------

/-- A zone entry of the parameter-grid layout (ParameterGridContent). -/
structure Zone where
  name : String
  value : String
  range : Option String
deriving DecidableEq

/-- Fuel-indexed worker for the row-splitting loop of ParameterGridContent:
for i = 0, 3, 6, ... push zones.slice(i, i+3). -/
def parameterGridRowsAux : ℕ → List Zone → List (List Zone)
  | 0, _ => []
  | _, [] => []
  | fuel + 1, z :: zs => (z :: zs.take 2) :: parameterGridRowsAux fuel (zs.drop 2)

/-- The row-splitting loop of ParameterGridContent in ManufacturingOverlay.tsx:
splits the zones list into consecutive groups of three. -/
def parameterGridRows (zs : List Zone) : List (List Zone) :=
  parameterGridRowsAux zs.length zs

-- ---------- C4: Change Tracker ----------

/-- Modelled from the spec: persisted store state seen by the Change Tracker:
document metadata (path mapped to stored content hash), chunk store, dense
store and sparse store, keyed by (document path, chunk index). -/
structure TrackState where
  documents : List (String × ℕ)
  chunks : List ((String × ℕ) × String)
  dense : List ((String × ℕ) × List Int)
  sparse : List ((String × ℕ) × List String)
deriving DecidableEq

/-- Outcome of processing one candidate file during an ingestion run. -/
inductive IngestOutcome
  | ingested
  | skipped
  | reingested
deriving DecidableEq

/-- Modelled from the spec: invalidation of a changed document removes its
metadata row and all of its chunks from the chunk, dense and sparse stores. -/
def invalidate (st : TrackState) (path : String) : TrackState :=
  ⟨st.documents.filter (fun e => e.1 ≠ path),
   st.chunks.filter (fun e => e.1.1 ≠ path),
   st.dense.filter (fun e => e.1.1 ≠ path),
   st.sparse.filter (fun e => e.1.1 ≠ path)⟩

/-- Modelled from the spec: the Change Tracker decision for one candidate
file: an unseen path is ingested; an unchanged hash is skipped unless the
force flag is set; a changed or forced file is invalidated and reingested.
The chunking and indexing work itself is the reingest capability argument. -/
def processFile (hash : String → ℕ) (reingest : TrackState → String → String → TrackState)
    (force : Bool) (st : TrackState) (path content : String) :
    TrackState × IngestOutcome :=
  match st.documents.lookup path with
  | none => (reingest st path content, IngestOutcome.ingested)
  | some h0 =>
    if force = false ∧ hash content = h0 then (st, IngestOutcome.skipped)
    else (reingest (invalidate st path) path content, IngestOutcome.reingested)

-- ---------- C6: Context Expander ----------

/-- Fuel-indexed worker keeping the first occurrence of every element. -/
def dedupFirstAux {α : Type} [DecidableEq α] : ℕ → List α → List α
  | 0, _ => []
  | _, [] => []
  | fuel + 1, x :: xs => x :: dedupFirstAux fuel (xs.filter (fun y => y ≠ x))

/-- Modelled from the spec: deduplication keeping the first occurrence of
each element in order; used for owning parents in the Context Expander and
for fused candidates in the Hybrid Retriever. -/
def dedupFirst {α : Type} [DecidableEq α] (l : List α) : List α :=
  dedupFirstAux l.length l

/-- Modelled from the spec: greedy token-budget cut: keep parents in fused
order while they fit the remaining budget, truncating the lowest-ranked
parents when the budget would be exceeded. -/
def takeBudget (ptoks : ℕ → ℕ) : ℕ → List ℕ → List ℕ
  | _, [] => []
  | budget, p :: ps =>
    if ptoks p ≤ budget then p :: takeBudget ptoks (budget - ptoks p) ps else []

/-- Modelled from the spec: the Context Expander: map fused child hits to
their owning parents, deduplicate keeping first appearance, and enforce the
caller token budget. -/
def expandContext (parentOf ptoks : ℕ → ℕ) (budget : ℕ) (hits : List ℕ) : List ℕ :=
  takeBudget ptoks budget (dedupFirst (hits.map parentOf))

-- ---------- C5: Hierarchical Chunker ----------

/-- Modelled from the spec: sliding child-window worker over a parent token
list: emit a w-token child, advance by the stride s (window minus overlap);
the final child may be shorter than the target size.  The fuel argument
bounds the number of steps and is instantiated with the token count. -/
def slideChildrenAux (w s : ℕ) : ℕ → List String → List (List String)
  | 0, toks => [toks]
  | fuel + 1, toks =>
    if toks.length ≤ w then [toks]
    else toks.take w :: slideChildrenAux w s fuel (toks.drop s)

/-- Modelled from the spec: child chunking of one parent: slide a w-token
window with stride s = w - overlap across the parent tokens. -/
def slideChildren (w s : ℕ) (toks : List String) : List (List String) :=
  slideChildrenAux w s toks.length toks

/-- Modelled from the spec: child chunking of every parent of a document;
children are produced per parent, so a child span never crosses a parent
boundary. -/
def chunkDoc (w s : ℕ) (parents : List (List String)) :
    List (List String × List (List String)) :=
  parents.map (fun p => (p, slideChildren w s p))

/-- Tail of a parent reconstruction: every child after the first contributes
its tokens beyond the declared overlap window o. -/
def overlapTail (o : ℕ) : List (List String) → List String
  | [] => []
  | c :: cs => c.drop o ++ overlapTail o cs

/-- Reconstruction of a parent from its children: the first child whole, each
subsequent child minus the declared overlap window o. -/
def overlapJoin (o : ℕ) : List (List String) → List String
  | [] => []
  | c :: cs => c ++ overlapTail o cs

-- ---------- C7: query pipeline ----------

/-- Insertion step of the ranking sort used by the retrieval scans. -/
def insertRanked {α : Type} (le : α → α → Bool) (x : α) : List α → List α
  | [] => [x]
  | y :: ys => if le x y then x :: y :: ys else y :: insertRanked le x ys

/-- Insertion sort by a boolean comparator, used to rank scan results. -/
def sortRanked {α : Type} (le : α → α → Bool) (l : List α) : List α :=
  l.foldr (insertRanked le) []

/-- Dot product similarity over embedding vectors. -/
def dotInt (a b : List Int) : Int :=
  (List.zipWith (fun x y => x * y) a b).sum

/-- Modelled from the spec: the fixed sparse tokenization and normalization
scheme: whitespace split plus case folding. -/
def sparseTerms (s : String) : List String :=
  (s.splitOn " ").map (fun w => w.toLower)

/-- Modelled from the spec: sparse term-overlap score between query terms and
the postings of a chunk (the exact inverse-document-frequency weighting is
abstracted to overlap counting). -/
def sparseOverlap (qterms terms : List String) : ℕ :=
  (qterms.filter (fun t => t ∈ terms)).length

/-- Modelled from the spec: the co-located dense and sparse stores keyed by
child-chunk id. -/
structure QueryIndex where
  dense : List (ℕ × List Int)
  sparse : List (ℕ × List String)
deriving DecidableEq

/-- Modelled from the spec: dense nearest-neighbour scan: rank the dense
store by similarity to the query embedding, best first. -/
def denseSearch (embedQ : String → List Int) (idx : QueryIndex) (q : String) : List ℕ :=
  (sortRanked
    (fun e1 e2 => decide (dotInt (embedQ q) e2.2 ≤ dotInt (embedQ q) e1.2))
    idx.dense).map Prod.fst

/-- Modelled from the spec: sparse keyword scan: keep chunks with a positive
term overlap with the query terms and rank them by overlap, best first. -/
def sparseSearch (idx : QueryIndex) (q : String) : List ℕ :=
  (sortRanked
    (fun e1 e2 =>
      decide (sparseOverlap (sparseTerms q) e2.2 ≤ sparseOverlap (sparseTerms q) e1.2))
    (idx.sparse.filter (fun e => 0 < sparseOverlap (sparseTerms q) e.2))).map Prod.fst

/-- Modelled from the spec: Reciprocal Rank Fusion of the two ranked lists:
candidates from either list, deduplicated, sorted by the fused comparator. -/
def rrfFuse (k : ℚ) (D S : List ℕ) : List ℕ :=
  sortRanked (fusedLeBool k D S) (dedupFirst (D ++ S))

/-- Result of the query entry point: either an explicit no-knowledge marker
or a synthesized answer with its citations. -/
inductive QueryResult
  | noKnowledge
  | answer (text : String) (citations : List ℕ)
deriving DecidableEq

/-- Modelled from the spec: the query entry point: run the dense and sparse
scans, fuse them, and either report that no knowledge is available (empty
fused candidate set) or expand the context and synthesize an answer through
the external synthesis capability. -/
def queryKB (embedQ : String → List Int) (synth : String → List ℕ → String) (k : ℚ)
    (parentOf ptoks : ℕ → ℕ) (budget : ℕ) (idx : QueryIndex) (q : String) : QueryResult :=
  let fused := rrfFuse k (denseSearch embedQ idx q) (sparseSearch idx q)
  if fused = [] then QueryResult.noKnowledge
  else
    let ctx := expandContext parentOf ptoks budget fused
    QueryResult.answer (synth q ctx) ctx

-- ---------- C3: Index Builder ingestion batch ----------

/-- Modelled from the spec: a document to be ingested: identity plus its
child-chunk texts (the chunking stage is upstream of the Index Builder). -/
structure Doc where
  id : ℕ
  chunkTexts : List String
deriving DecidableEq

/-- Modelled from the spec: the persisted index state of an ingestion run:
dense store and sparse store keyed by (document id, chunk index) in lock-step,
plus the per-document success and failure records. -/
structure KBStore where
  dense : List ((ℕ × ℕ) × List Int)
  sparse : List ((ℕ × ℕ) × List String)
  indexedDocs : List ℕ
  failedDocs : List ℕ
deriving DecidableEq

/-- Chunk ids of a document: (document id, chunk sequence index). -/
def chunkKeys (d : Doc) : List (ℕ × ℕ) :=
  (List.range d.chunkTexts.length).map (fun i => (d.id, i))

/-- Modelled from the spec: embed every chunk of a document through the
external embedding capability; the capability result already accounts for the
retry policy, so none means retries were exhausted.  All chunks must embed or
the whole document fails (atomic per-document commit). -/
def embedChunks (embed : String → Option (List Int)) : List String → Option (List (List Int))
  | [] => some []
  | t :: ts =>
    match embed t, embedChunks embed ts with
    | some v, some vs => some (v :: vs)
    | _, _ => none

/-- Modelled from the spec: ingest one document: if every chunk embeds, the
dense and sparse entries of all its chunks are committed together and the
document is recorded as indexed; otherwise nothing is written and the
document is recorded as failed. -/
def ingestDoc (embed : String → Option (List Int)) (st : KBStore) (d : Doc) : KBStore :=
  match embedChunks embed d.chunkTexts with
  | some vs =>
    ⟨st.dense ++ (chunkKeys d).zip vs,
     st.sparse ++ (chunkKeys d).zip (d.chunkTexts.map sparseTerms),
     st.indexedDocs ++ [d.id],
     st.failedDocs⟩
  | none =>
    ⟨st.dense, st.sparse, st.indexedDocs, st.failedDocs ++ [d.id]⟩

/-- Dense entries one document adds to the store (empty on failure). -/
def denseAdd (embed : String → Option (List Int)) (d : Doc) : List ((ℕ × ℕ) × List Int) :=
  match embedChunks embed d.chunkTexts with
  | some vs => (chunkKeys d).zip vs
  | none => []

/-- Sparse entries one document adds to the store (empty on failure). -/
def sparseAdd (embed : String → Option (List Int)) (d : Doc) : List ((ℕ × ℕ) × List String) :=
  match embedChunks embed d.chunkTexts with
  | some _ => (chunkKeys d).zip (d.chunkTexts.map sparseTerms)
  | none => []

/-- Modelled from the spec: an ingestion run over a batch of documents. -/
def ingestBatch (embed : String → Option (List Int)) (st : KBStore) (docs : List Doc) :
    KBStore :=
  docs.foldl (ingestDoc embed) st

-- ---------- sample data used by witnesses ----------

/-- Embedding capability stub used by witnesses: fails on one chunk text. -/
def demoEmbed : String → Option (List Int) :=
  fun t => if t = "bad" then none else some [1]

/-- The document of the witness batch whose embedding fails. -/
def demoDocBad : Doc := ⟨1, ["bad"]⟩

/-- Witness batch: three documents, the middle one failing to embed. -/
def demoDocs : List Doc :=
  [⟨0, ["alpha"]⟩, demoDocBad, ⟨2, ["gamma", "delta"]⟩]

/-- Empty store a witness ingestion run starts from. -/
def emptyKBStore : KBStore := ⟨[], [], [], []⟩

/-- Sample parent token list used by witnesses. -/
def demoParentToks : List String := ["zone", "three", "target", "temperature"]

/-- Query embedding stub used by witnesses. -/
def demoEmbedQ : String → List Int := fun _ => []

/-- Answer synthesis stub used by witnesses. -/
def demoSynth : String → List ℕ → String := fun _ _ => "no sources"

/-- Sample tracker state used by witnesses: one already ingested document. -/
def demoTrackState : TrackState :=
  ⟨[("spec.pdf", 3)],
   [(("spec.pdf", 0), "abc")],
   [(("spec.pdf", 0), [1])],
   [(("spec.pdf", 0), ["abc"])]⟩

/-- Trivial reingest capability used by witnesses. -/
def demoReingest : TrackState → String → String → TrackState :=
  fun st _ _ => st

/-- Parent lookup used by witnesses: chunk id 10 p + i belongs to parent p. -/
def demoParentOf : ℕ → ℕ := fun c => c / 10

/-- Parent token count used by witnesses. -/
def demoPtoks : ℕ → ℕ := fun _ => 5

/-- Fused child hits used by witnesses. -/
def demoHits : List ℕ := [11, 12, 21, 31]

/-- Sample overlay payload used by witnesses. -/
def sampleOverlay : OverlayData :=
  ⟨"single-value", "Zone 3 Temperature", none, none, [("value", "310")]⟩

/-- Second sample overlay payload used by witnesses. -/
def sampleOverlay2 : OverlayData :=
  ⟨"parameter-grid", "Zones", some "Line 2", some "Manual_v2.pdf", []⟩

/-- Sample zone list used by witnesses. -/
def sampleZones : List Zone :=
  [⟨"Zone 1", "290", none⟩, ⟨"Zone 2", "300", none⟩,
   ⟨"Zone 3", "310", some "305-315"⟩, ⟨"Zone 4", "315", none⟩]

-- ============================================================
-- Theorems
-- ============================================================

-- ---------- helper lemmas ----------

theorem parameterGridRowsAux_flatten (fuel : ℕ) :
    ∀ zs : List Zone, zs.length ≤ fuel → (parameterGridRowsAux fuel zs).flatten = zs := by
  induction fuel with
  | zero =>
    intro zs h
    have : zs = [] := List.length_eq_zero.mp (Nat.le_zero.mp h)
    subst this
    rfl
  | succ n ih =>
    intro zs h
    match zs with
    | [] => rfl
    | z :: zs =>
      simp only [parameterGridRowsAux, List.flatten_cons]
      have hlen : (zs.drop 2).length ≤ n := by
        simp only [List.length_drop]
        simp only [List.length_cons] at h
        omega
      rw [ih (zs.drop 2) hlen]
      simp [List.take_append_drop]

theorem parameterGridRowsAux_nil_iff (fuel : ℕ) (zs : List Zone) (h : zs.length ≤ fuel) :
    parameterGridRowsAux fuel zs = [] ↔ zs = [] := by
  constructor
  · intro he
    match fuel, zs with
    | 0, zs => exact List.length_eq_zero.mp (Nat.le_zero.mp h)
    | n + 1, [] => rfl
    | n + 1, z :: zs => simp [parameterGridRowsAux] at he
  · intro he
    subst he
    match fuel with
    | 0 => rfl
    | n + 1 => rfl

theorem parameterGridRowsAux_mem_len (fuel : ℕ) :
    ∀ zs : List Zone, zs.length ≤ fuel → ∀ r ∈ parameterGridRowsAux fuel zs,
      r ≠ [] ∧ r.length ≤ 3 := by
  induction fuel with
  | zero =>
    intro zs h r hr
    have : zs = [] := List.length_eq_zero.mp (Nat.le_zero.mp h)
    subst this
    simp [parameterGridRowsAux] at hr
  | succ n ih =>
    intro zs h r hr
    match zs with
    | [] => simp [parameterGridRowsAux] at hr
    | z :: zs =>
      simp only [parameterGridRowsAux, List.mem_cons] at hr
      rcases hr with hr | hr
      · subst hr
        refine ⟨by simp, ?_⟩
        simp only [List.length_cons]
        have := List.length_take_le 2 zs
        omega
      · have hlen : (zs.drop 2).length ≤ n := by
          simp only [List.length_drop]
          simp only [List.length_cons] at h
          omega
        exact ih (zs.drop 2) hlen r hr

theorem parameterGridRowsAux_dropLast_len (fuel : ℕ) :
    ∀ zs : List Zone, zs.length ≤ fuel →
      ∀ r ∈ (parameterGridRowsAux fuel zs).dropLast, r.length = 3 := by
  induction fuel with
  | zero =>
    intro zs h r hr
    have : zs = [] := List.length_eq_zero.mp (Nat.le_zero.mp h)
    subst this
    simp [parameterGridRowsAux] at hr
  | succ n ih =>
    intro zs h r hr
    match zs with
    | [] => simp [parameterGridRowsAux] at hr
    | z :: zs =>
      simp only [parameterGridRowsAux] at hr
      have hlen : (zs.drop 2).length ≤ n := by
        simp only [List.length_drop]
        simp only [List.length_cons] at h
        omega
      by_cases hrest : parameterGridRowsAux n (zs.drop 2) = []
      · rw [hrest] at hr
        simp at hr
      · rw [List.dropLast_cons_of_ne_nil hrest, List.mem_cons] at hr
        rcases hr with hr | hr
        · subst hr
          have hz : zs.drop 2 ≠ [] :=
            fun hz => hrest ((parameterGridRowsAux_nil_iff n (zs.drop 2) hlen).mpr hz)
          have h2 : 2 ≤ zs.length := by
            by_contra hc
            apply hz
            apply List.drop_eq_nil_of_le
            omega
          simp only [List.length_cons, List.length_take]
          omega
        · exact ih (zs.drop 2) hlen r hr

theorem lookup_eq_none_of_not_mem_keys (l : List (String × String)) (k : String)
    (h : k ∉ l.map Prod.fst) : l.lookup k = none := by
  induction l with
  | nil => rfl
  | cons e rest ih =>
    simp only [List.map_cons, List.mem_cons] at h
    push_neg at h
    simp only [List.lookup]
    have : (k == e.1) = false := beq_eq_false_iff_ne.mpr h.1
    rw [this]
    exact ih h.2

-- ---------- C8 ----------

/-- C8: the showOverlay RPC handler leaves the overlay state unchanged and
returns a success=false response with error "Invalid payload" when the payload
does not parse, and sets the overlay state to the parsed payload and returns a
success=true response when it does. -/
theorem showOverlay_handler_correct (parsed : Option OverlayData) (st : Option OverlayData) :
    (parsed = none →
      handleShowOverlay parsed st = (st, ⟨false, some "Invalid payload"⟩)) ∧
    (∀ ov : OverlayData, parsed = some ov →
      handleShowOverlay parsed st = (some ov, ⟨true, none⟩)) := by
  constructor
  · intro h
    subst h
    rfl
  · intro ov h
    subst h
    rfl

/-- Witness for C8 at concrete payloads: a failed parse keeps the previous
overlay and reports the error; a successful parse replaces it. -/
theorem showOverlay_handler_correct_witness :
    handleShowOverlay none (some sampleOverlay) =
      (some sampleOverlay, ⟨false, some "Invalid payload"⟩) ∧
    handleShowOverlay (some sampleOverlay2) (some sampleOverlay) =
      (some sampleOverlay2, ⟨true, none⟩) :=
  ⟨(showOverlay_handler_correct none (some sampleOverlay)).1 rfl,
   (showOverlay_handler_correct (some sampleOverlay2) (some sampleOverlay)).2 sampleOverlay2 rfl⟩

-- ---------- C9 ----------

/-- C9: the rendered card width is determined solely by the layout type, via
the fixed cardWidths mapping, and any layout type outside the mapping falls
back to 450px. -/
theorem card_width_mapping_correct :
    (∀ ov ov' : OverlayData, ov.layoutType = ov'.layoutType →
      overlayCardWidth ov = overlayCardWidth ov') ∧
    cardWidth "single-value" = "350px" ∧
    cardWidth "quick-lookup" = "400px" ∧
    cardWidth "range-display" = "420px" ∧
    cardWidth "multi-parameter" = "460px" ∧
    cardWidth "lookup-with-context" = "480px" ∧
    cardWidth "alert-information" = "500px" ∧
    cardWidth "parameter-grid" = "550px" ∧
    cardWidth "comparison-table" = "650px" ∧
    (∀ lt : String, lt ∉ cardWidths.map Prod.fst → cardWidth lt = "450px") := by
  refine ⟨?_, rfl, rfl, rfl, rfl, rfl, rfl, rfl, rfl, ?_⟩
  · intro ov ov' h
    simp [overlayCardWidth, h]
  · intro lt h
    simp [cardWidth, lookup_eq_none_of_not_mem_keys cardWidths lt h]

/-- Witness for C9: a layout type outside the mapping (as delivered by an
unchecked payload) gets the 450px fallback, and two overlays sharing a layout
type share a width. -/
theorem card_width_mapping_correct_witness :
    ("status-card" ∉ cardWidths.map Prod.fst) ∧
    cardWidth "status-card" = "450px" ∧
    overlayCardWidth sampleOverlay = overlayCardWidth ⟨"single-value", "T2", none, none, []⟩ :=
  ⟨by decide,
   card_width_mapping_correct.2.2.2.2.2.2.2.2.2 "status-card" (by decide),
   card_width_mapping_correct.1 sampleOverlay ⟨"single-value", "T2", none, none, []⟩ rfl⟩

-- ---------- C10 ----------

/-- C10: the parameter-grid renderer partitions the zones list into
consecutive groups of exactly three (only the final group may be shorter),
preserving input order and rendering each zone exactly once. -/
theorem parameter_grid_rows_partition (zs : List Zone) :
    (parameterGridRows zs).flatten = zs ∧
    (∀ r ∈ (parameterGridRows zs).dropLast, r.length = 3) ∧
    (∀ r ∈ parameterGridRows zs, r ≠ [] ∧ r.length ≤ 3) :=
  ⟨parameterGridRowsAux_flatten zs.length zs (Nat.le_refl _),
   parameterGridRowsAux_dropLast_len zs.length zs (Nat.le_refl _),
   parameterGridRowsAux_mem_len zs.length zs (Nat.le_refl _)⟩

/-- Witness for C10 on a concrete four-zone list: the rows are the first three
zones then the remaining one, re-flattening to the input. -/
theorem parameter_grid_rows_partition_witness :
    (parameterGridRows sampleZones).flatten = sampleZones ∧
    (sampleZones.take 3 ∈ (parameterGridRows sampleZones).dropLast) ∧
    (sampleZones.take 3).length = 3 ∧
    (sampleZones.drop 3 ∈ parameterGridRows sampleZones) ∧
    sampleZones.drop 3 ≠ [] ∧ (sampleZones.drop 3).length ≤ 3 :=
  ⟨(parameter_grid_rows_partition sampleZones).1,
   by decide,
   (parameter_grid_rows_partition sampleZones).2.1 (sampleZones.take 3) (by decide),
   by decide,
   (parameter_grid_rows_partition sampleZones).2.2 (sampleZones.drop 3) (by decide)⟩

-- ---------- RRF lemmas ----------

theorem rrfContribAux_eq (k : ℚ) (c : ℕ) :
    ∀ (l : List ℕ) (r : ℕ),
      rrfContribAux k c r l =
        if c ∈ l then 1 / (k + ((firstIdx c l + r : ℕ) : ℚ)) else 0 := by
  intro l
  induction l with
  | nil => intro r; simp [rrfContribAux]
  | cons x xs ih =>
    intro r
    by_cases hx : x = c
    · subst hx
      simp [rrfContribAux, firstIdx]
    · have hcx : ¬ (c = x) := fun h => hx h.symm
      simp only [rrfContribAux, firstIdx, if_neg hx, List.mem_cons]
      rw [ih (r + 1)]
      by_cases hc : c ∈ xs
      · have harith : firstIdx c xs + (r + 1) = firstIdx c xs + 1 + r := by omega
        simp only [hc, if_true, or_true, harith]
      · simp [hc, hcx]

theorem rrfContrib_of_not_mem (k : ℚ) (c : ℕ) (l : List ℕ) (h : c ∉ l) :
    rrfContrib k c l = 0 := by
  rw [rrfContrib, rrfContribAux_eq]
  simp [h]

theorem rrfContrib_head (k : ℚ) (x : ℕ) (t : List ℕ) :
    rrfContrib k x (x :: t) = 1 / (k + 1) := by
  rw [rrfContrib, rrfContribAux_eq]
  simp [firstIdx]

theorem rrfContrib_le_top (k : ℚ) (hk : 0 < k) (c : ℕ) (l : List ℕ) :
    rrfContrib k c l ≤ 1 / (k + 1) := by
  rw [rrfContrib, rrfContribAux_eq]
  by_cases hc : c ∈ l
  · simp only [hc, if_true]
    apply one_div_le_one_div_of_le
    · linarith
    · push_cast
      have : (0 : ℚ) ≤ (firstIdx c l : ℚ) := Nat.cast_nonneg _
      linarith
  · simp only [hc, if_false]
    positivity

-- ---------- C1 ----------

/-- C1: for every query fused by the Hybrid Retriever, the RRF score of a
chunk equals the sum of 1 / (k + rank-in-list) over exactly those of the
lists D and S in which the chunk appears; a chunk absent from a list gets no
contribution from that list. -/
theorem rrf_fused_score_characterization (k : ℚ) (D S : List ℕ) (c : ℕ) :
    rrfScore k D S c =
      (if c ∈ D then 1 / (k + (rankIn D c : ℚ)) else 0) +
      (if c ∈ S then 1 / (k + (rankIn S c : ℚ)) else 0) := by
  unfold rrfScore rrfContrib rankIn
  rw [show rrfContribAux k c 1 D = _ from rrfContribAux_eq k c D 1,
      show rrfContribAux k c 1 S = _ from rrfContribAux_eq k c S 1]

-- ---------- C2 ----------

/-- C2: with a positive fusion constant, a chunk at rank 1 in both ranked
lists receives a strictly higher fused score than a chunk that appears in only
one of the two lists (in particular one whose only appearance is at the top of
a single list), and therefore precedes it under the fused ordering comparator.
Inside a single pair of ranked lists no second chunk can literally occupy rank
1 of either list, so the single-list chunk is quantified at an arbitrary rank,
which subsumes the rank-1 case. -/
theorem rrf_rank1_both_beats_single_list (k : ℚ) (D S : List ℕ) (x y : ℕ)
    (hk : 0 < k)
    (hxD : D.head? = some x) (hxS : S.head? = some x)
    (hy : (y ∈ D ∧ y ∉ S) ∨ (y ∉ D ∧ y ∈ S)) :
    rrfScore k D S y < rrfScore k D S x ∧
    fusedLeBool k D S x y = true ∧
    fusedLeBool k D S y x = false := by
  obtain ⟨D', rfl⟩ : ∃ t, D = x :: t := by
    cases D with
    | nil => simp at hxD
    | cons d t =>
      refine ⟨t, ?_⟩
      simp only [List.head?] at hxD
      injection hxD with h
      rw [h]
  obtain ⟨S', rfl⟩ : ∃ t, S = x :: t := by
    cases S with
    | nil => simp at hxS
    | cons d t =>
      refine ⟨t, ?_⟩
      simp only [List.head?] at hxS
      injection hxS with h
      rw [h]
  have hpos : (0 : ℚ) < 1 / (k + 1) := by positivity
  have hxscore : rrfScore k (x :: D') (x :: S') x = 1 / (k + 1) + 1 / (k + 1) := by
    rw [rrfScore, rrfContrib_head, rrfContrib_head]
  have hyscore : rrfScore k (x :: D') (x :: S') y ≤ 1 / (k + 1) := by
    rcases hy with ⟨hyD, hyS⟩ | ⟨hyD, hyS⟩
    · rw [rrfScore, rrfContrib_of_not_mem k y _ hyS, add_zero]
      exact rrfContrib_le_top k hk y _
    · rw [rrfScore, rrfContrib_of_not_mem k y _ hyD, zero_add]
      exact rrfContrib_le_top k hk y _
  have hlt : rrfScore k (x :: D') (x :: S') y < rrfScore k (x :: D') (x :: S') x := by
    rw [hxscore]
    linarith
  refine ⟨hlt, ?_, ?_⟩
  · simp [fusedLeBool, hlt]
  · have h1 : ¬ (rrfScore k (x :: D') (x :: S') x < rrfScore k (x :: D') (x :: S') y) :=
      lt_asymm hlt
    have h2 : ¬ (rrfScore k (x :: D') (x :: S') y = rrfScore k (x :: D') (x :: S') x) :=
      ne_of_lt hlt
    simp [fusedLeBool, h1, h2]

/-- Witness for C2: k = 60, dense list D = [5, 7], sparse list S = [5]; chunk
5 is at rank 1 of both lists, chunk 7 appears only in the dense list. -/
theorem rrf_rank1_both_beats_single_list_witness :
    (0 : ℚ) < 60 ∧
    ([5, 7] : List ℕ).head? = some 5 ∧
    ([5] : List ℕ).head? = some 5 ∧
    (7 ∈ ([5, 7] : List ℕ) ∧ 7 ∉ ([5] : List ℕ)) ∧
    rrfScore 60 [5, 7] [5] 7 < rrfScore 60 [5, 7] [5] 5 ∧
    fusedLeBool 60 [5, 7] [5] 5 7 = true ∧
    fusedLeBool 60 [5, 7] [5] 7 5 = false :=
  ⟨by norm_num, rfl, rfl, ⟨by decide, by decide⟩,
   rrf_rank1_both_beats_single_list 60 [5, 7] [5] 5 7 (by norm_num) rfl rfl
     (Or.inl ⟨by decide, by decide⟩)⟩

-- ---------- C4 ----------

/-- C4: re-running ingestion on a file whose content hash matches the stored
hash without the force flag returns the store untouched (zero new chunks,
zero dense or sparse mutations) with a skipped outcome; with the force flag
set the file is reprocessed regardless of the hash match. -/
theorem change_tracker_skip_unchanged_and_force
    (hash : String → ℕ) (reingest : TrackState → String → String → TrackState)
    (st : TrackState) (path content : String) (h0 : ℕ)
    (hl : st.documents.lookup path = some h0)
    (hh : hash content = h0) :
    processFile hash reingest false st path content = (st, IngestOutcome.skipped) ∧
    (processFile hash reingest false st path content).1.chunks = st.chunks ∧
    (processFile hash reingest false st path content).1.dense = st.dense ∧
    (processFile hash reingest false st path content).1.sparse = st.sparse ∧
    processFile hash reingest true st path content =
      (reingest (invalidate st path) path content, IngestOutcome.reingested) := by
  have h1 : processFile hash reingest false st path content = (st, IngestOutcome.skipped) := by
    simp [processFile, hl, hh]
  refine ⟨h1, by rw [h1], by rw [h1], by rw [h1], ?_⟩
  simp [processFile, hl]

/-- Witness for C4: a stored document whose hash matches the current content
is skipped without any store mutation, and is reprocessed under force. -/
theorem change_tracker_skip_unchanged_and_force_witness :
    demoTrackState.documents.lookup "spec.pdf" = some 3 ∧
    String.length "abc" = 3 ∧
    processFile String.length demoReingest false demoTrackState "spec.pdf" "abc" =
      (demoTrackState, IngestOutcome.skipped) ∧
    processFile String.length demoReingest true demoTrackState "spec.pdf" "abc" =
      (demoReingest (invalidate demoTrackState "spec.pdf") "spec.pdf" "abc",
        IngestOutcome.reingested) :=
  ⟨by decide, by decide,
   (change_tracker_skip_unchanged_and_force String.length demoReingest demoTrackState
      "spec.pdf" "abc" 3 (by decide) (by decide)).1,
   (change_tracker_skip_unchanged_and_force String.length demoReingest demoTrackState
      "spec.pdf" "abc" 3 (by decide) (by decide)).2.2.2.2⟩

-- ---------- Context Expander lemmas ----------

theorem mem_of_mem_dedupFirstAux {α : Type} [DecidableEq α] :
    ∀ (fuel : ℕ) (l : List α) (a : α), a ∈ dedupFirstAux fuel l → a ∈ l := by
  intro fuel
  induction fuel with
  | zero => intro l a ha; simp [dedupFirstAux] at ha
  | succ n ih =>
    intro l a ha
    match l with
    | [] => simp [dedupFirstAux] at ha
    | x :: xs =>
      simp only [dedupFirstAux, List.mem_cons] at ha
      rcases ha with ha | ha
      · exact ha ▸ List.mem_cons_self x xs
      · exact List.mem_cons_of_mem x (List.mem_of_mem_filter (ih _ a ha))

theorem nodup_dedupFirstAux {α : Type} [DecidableEq α] :
    ∀ (fuel : ℕ) (l : List α), (dedupFirstAux fuel l).Nodup := by
  intro fuel
  induction fuel with
  | zero => intro l; simp [dedupFirstAux]
  | succ n ih =>
    intro l
    match l with
    | [] => simp [dedupFirstAux]
    | x :: xs =>
      rw [dedupFirstAux, List.nodup_cons]
      refine ⟨fun hx => ?_, ih _⟩
      have := List.of_mem_filter (mem_of_mem_dedupFirstAux n _ x hx)
      simp at this

theorem takeBudget_eq_take (ptoks : ℕ → ℕ) :
    ∀ (l : List ℕ) (budget : ℕ), ∃ n, takeBudget ptoks budget l = l.take n := by
  intro l
  induction l with
  | nil => intro budget; exact ⟨0, rfl⟩
  | cons p ps ih =>
    intro budget
    by_cases hp : ptoks p ≤ budget
    · obtain ⟨n, hn⟩ := ih (budget - ptoks p)
      exact ⟨n + 1, by simp [takeBudget, hp, hn]⟩
    · exact ⟨0, by simp [takeBudget, hp]⟩

theorem takeBudget_sum_le (ptoks : ℕ → ℕ) :
    ∀ (l : List ℕ) (budget : ℕ), ((takeBudget ptoks budget l).map ptoks).sum ≤ budget := by
  intro l
  induction l with
  | nil => intro budget; simp [takeBudget]
  | cons p ps ih =>
    intro budget
    by_cases hp : ptoks p ≤ budget
    · simp only [takeBudget, hp, if_true, List.map_cons, List.sum_cons]
      have := ih (budget - ptoks p)
      omega
    · simp [takeBudget, hp]

theorem firstIdx_take {α : Type} [DecidableEq α] (a : α) :
    ∀ (l : List α) (n : ℕ), a ∈ l.take n → firstIdx a (l.take n) = firstIdx a l := by
  intro l
  induction l with
  | nil => intro n ha; simp at ha
  | cons x xs ih =>
    intro n ha
    match n with
    | 0 => simp at ha
    | m + 1 =>
      simp only [List.take_succ_cons] at ha ⊢
      by_cases hx : x = a
      · simp [firstIdx, hx]
      · simp only [List.mem_cons] at ha
        rcases ha with ha | ha
        · exact absurd ha.symm hx
        · simp [firstIdx, hx, ih m ha]

theorem firstIdx_filter_lt_iff {α : Type} [DecidableEq α] (p : α → Bool) :
    ∀ (l : List α) (a b : α), a ∈ l.filter p → b ∈ l.filter p →
      (firstIdx a (l.filter p) < firstIdx b (l.filter p) ↔ firstIdx a l < firstIdx b l) := by
  intro l
  induction l with
  | nil => intro a b ha; simp at ha
  | cons x xs ih =>
    intro a b ha hb
    by_cases hx : p x
    · rw [List.filter_cons_of_pos hx] at ha hb ⊢
      by_cases hxa : x = a
      · subst hxa
        by_cases hxb : x = b
        · subst hxb; simp [firstIdx]
        · simp [firstIdx, hxb]
      · by_cases hxb : x = b
        · subst hxb; simp [firstIdx, hxa]
        · simp only [List.mem_cons] at ha hb
          rcases ha with ha | ha
          · exact absurd ha.symm hxa
          rcases hb with hb | hb
          · exact absurd hb.symm hxb
          simp only [firstIdx, if_neg hxa, if_neg hxb]
          rw [Nat.add_lt_add_iff_right, Nat.add_lt_add_iff_right]
          exact ih a b ha hb
    · rw [List.filter_cons_of_neg (by simpa using hx)] at ha hb ⊢
      have hpa : p a := List.of_mem_filter ha
      have hpb : p b := List.of_mem_filter hb
      have hxa : x ≠ a := fun h => hx (h ▸ hpa)
      have hxb : x ≠ b := fun h => hx (h ▸ hpb)
      simp only [firstIdx, if_neg hxa, if_neg hxb]
      rw [ih a b ha hb]
      omega

theorem firstIdx_dedupFirstAux_lt_iff {α : Type} [DecidableEq α] :
    ∀ (fuel : ℕ) (l : List α) (a b : α),
      a ∈ dedupFirstAux fuel l → b ∈ dedupFirstAux fuel l →
      (firstIdx a (dedupFirstAux fuel l) < firstIdx b (dedupFirstAux fuel l) ↔
        firstIdx a l < firstIdx b l) := by
  intro fuel
  induction fuel with
  | zero => intro l a b ha; simp [dedupFirstAux] at ha
  | succ n ih =>
    intro l a b ha hb
    match l with
    | [] => simp [dedupFirstAux] at ha
    | x :: xs =>
      rw [dedupFirstAux] at ha hb ⊢
      by_cases hxa : x = a
      · subst hxa
        by_cases hxb : x = b
        · subst hxb; simp [firstIdx]
        · simp only [List.mem_cons] at hb
          rcases hb with hb | hb
          · exact absurd hb.symm hxb
          have hbxs : b ∈ xs := List.mem_of_mem_filter (mem_of_mem_dedupFirstAux n _ b hb)
          simp [firstIdx, hxb]
      · by_cases hxb : x = b
        · subst hxb; simp [firstIdx, hxa]
        · simp only [List.mem_cons] at ha hb
          rcases ha with ha | ha
          · exact absurd ha.symm hxa
          rcases hb with hb | hb
          · exact absurd hb.symm hxb
          have haf : a ∈ xs.filter (fun y => y ≠ x) := mem_of_mem_dedupFirstAux n _ a ha
          have hbf : b ∈ xs.filter (fun y => y ≠ x) := mem_of_mem_dedupFirstAux n _ b hb
          simp only [firstIdx, if_neg hxa, if_neg hxb]
          rw [Nat.add_lt_add_iff_right, Nat.add_lt_add_iff_right]
          rw [ih _ a b ha hb]
          exact firstIdx_filter_lt_iff _ xs a b haf hbf

-- ---------- C6 ----------

/-- C6: the Context Expander lists the owning parent of each hit child at most
once, keeps parents in first-appearance order of the fused ranking (the order
of first occurrence indices is preserved), never exceeds the caller token
budget, and truncates lowest-ranked parents first (the result is a prefix of
the deduplicated parent list). -/
theorem context_expander_guarantees (parentOf ptoks : ℕ → ℕ) (budget : ℕ) (hits : List ℕ) :
    (expandContext parentOf ptoks budget hits).Nodup ∧
    (∃ n, expandContext parentOf ptoks budget hits =
      (dedupFirst (hits.map parentOf)).take n) ∧
    ((expandContext parentOf ptoks budget hits).map ptoks).sum ≤ budget ∧
    (∀ p ∈ expandContext parentOf ptoks budget hits, p ∈ hits.map parentOf) ∧
    (∀ a b, a ∈ expandContext parentOf ptoks budget hits →
      b ∈ expandContext parentOf ptoks budget hits →
      (firstIdx a (expandContext parentOf ptoks budget hits) <
          firstIdx b (expandContext parentOf ptoks budget hits) ↔
        firstIdx a (hits.map parentOf) < firstIdx b (hits.map parentOf))) := by
  obtain ⟨n, hn⟩ := takeBudget_eq_take ptoks (dedupFirst (hits.map parentOf)) budget
  have hfullnodup : (dedupFirst (hits.map parentOf)).Nodup := nodup_dedupFirstAux _ _
  have hmemfull : ∀ a, a ∈ expandContext parentOf ptoks budget hits →
      a ∈ dedupFirst (hits.map parentOf) := by
    intro a ha
    rw [expandContext, hn] at ha
    exact (List.take_sublist n _).subset ha
  refine ⟨?_, ⟨n, hn⟩, takeBudget_sum_le ptoks _ budget, ?_, ?_⟩
  · rw [expandContext, hn]
    exact List.Nodup.sublist (List.take_sublist n _) hfullnodup
  · intro p hp
    exact mem_of_mem_dedupFirstAux _ _ p (hmemfull p hp)
  · intro a b ha hb
    have ha' : a ∈ (dedupFirst (hits.map parentOf)).take n := by
      rw [expandContext, hn] at ha; exact ha
    have hb' : b ∈ (dedupFirst (hits.map parentOf)).take n := by
      rw [expandContext, hn] at hb; exact hb
    rw [expandContext, hn, firstIdx_take a _ n ha', firstIdx_take b _ n hb']
    exact firstIdx_dedupFirstAux_lt_iff _ _ a b (hmemfull a ha) (hmemfull b hb)

/-- Witness for C6: four hits over three distinct parents with a budget that
only admits the two best-ranked parents; parent 1 (first appearing) precedes
parent 2, nothing is duplicated and the budget is respected. -/
theorem context_expander_guarantees_witness :
    (expandContext demoParentOf demoPtoks 12 demoHits).Nodup ∧
    ((expandContext demoParentOf demoPtoks 12 demoHits).map demoPtoks).sum ≤ 12 ∧
    (1 ∈ demoHits.map demoParentOf) ∧
    (firstIdx 1 (expandContext demoParentOf demoPtoks 12 demoHits) <
        firstIdx 2 (expandContext demoParentOf demoPtoks 12 demoHits) ↔
      firstIdx 1 (demoHits.map demoParentOf) < firstIdx 2 (demoHits.map demoParentOf)) :=
  ⟨(context_expander_guarantees demoParentOf demoPtoks 12 demoHits).1,
   (context_expander_guarantees demoParentOf demoPtoks 12 demoHits).2.2.1,
   (context_expander_guarantees demoParentOf demoPtoks 12 demoHits).2.2.2.1 1 (by decide),
   (context_expander_guarantees demoParentOf demoPtoks 12 demoHits).2.2.2.2 1 2
     (by decide) (by decide)⟩

-- ---------- Chunker lemmas ----------

theorem overlapTail_slideChildrenAux (w s : ℕ) (hs : 0 < s) (hsw : s ≤ w) :
    ∀ (fuel : ℕ) (ts : List String), ts.length ≤ fuel →
      overlapTail (w - s) (slideChildrenAux w s fuel ts) = ts.drop (w - s) := by
  intro fuel
  induction fuel with
  | zero =>
    intro ts h
    have : ts = [] := List.length_eq_zero.mp (Nat.le_zero.mp h)
    subst this
    simp [slideChildrenAux, overlapTail]
  | succ n ih =>
    intro ts h
    rw [slideChildrenAux]
    by_cases hle : ts.length ≤ w
    · simp [hle, overlapTail]
    · simp only [hle, if_false, overlapTail]
      have hlen : (ts.drop s).length ≤ n := by
        simp only [List.length_drop]
        omega
      rw [ih (ts.drop s) hlen]
      have e1 : List.drop (w - s) (List.take w ts) = List.take s (List.drop (w - s) ts) := by
        rw [List.drop_take w (w - s) ts]
        congr 1
        omega
      have e2 : List.drop (w - s) (List.drop s ts) = List.drop s (List.drop (w - s) ts) := by
        rw [List.drop_drop, List.drop_drop]
        congr 1
        omega
      rw [e1, e2, List.take_append_drop]

theorem overlapJoin_slideChildren (w s : ℕ) (hs : 0 < s) (hsw : s ≤ w) (ts : List String) :
    overlapJoin (w - s) (slideChildren w s ts) = ts := by
  rw [slideChildren]
  cases hfuel : ts.length with
  | zero =>
    have : ts = [] := List.length_eq_zero.mp hfuel
    subst this
    simp [slideChildrenAux, overlapJoin, overlapTail]
  | succ n =>
    rw [slideChildrenAux]
    by_cases hle : ts.length ≤ w
    · simp [hle, overlapJoin, overlapTail]
    · simp only [hle, if_false, overlapJoin]
      have hlen : (ts.drop s).length ≤ n := by
        simp only [List.length_drop]
        omega
      rw [overlapTail_slideChildrenAux w s hs hsw n (ts.drop s) hlen]
      rw [List.drop_drop]
      have h2 : s + (w - s) = w := by omega
      rw [h2, List.take_append_drop]

theorem slideChildrenAux_span (w s : ℕ) :
    ∀ (fuel : ℕ) (ts : List String) (ch : List String),
      ch ∈ slideChildrenAux w s fuel ts → ∃ i n, ch = (ts.drop i).take n := by
  intro fuel
  induction fuel with
  | zero =>
    intro ts ch hch
    simp only [slideChildrenAux, List.mem_singleton] at hch
    exact ⟨0, ts.length, by rw [hch, List.drop_zero, List.take_length]⟩
  | succ n ih =>
    intro ts ch hch
    rw [slideChildrenAux] at hch
    by_cases hle : ts.length ≤ w
    · simp only [hle, if_true, List.mem_singleton] at hch
      exact ⟨0, ts.length, by rw [hch, List.drop_zero, List.take_length]⟩
    · simp only [hle, if_false, List.mem_cons] at hch
      rcases hch with hch | hch
      · exact ⟨0, w, by rw [hch, List.drop_zero]⟩
      · obtain ⟨i, m, him⟩ := ih (ts.drop s) ch hch
        exact ⟨s + i, m, by rw [him, List.drop_drop]⟩

-- ---------- C5 ----------

/-- C5: after chunking, every child chunk of a parent is a contiguous
sub-span of that parent alone (children are produced per parent, so no span
crosses a parent boundary), and the children of a parent reconstruct the
parent exactly once: concatenating the first child with every later child
minus the declared overlap window yields the parent with no gap and no
further overlap. -/
theorem chunker_child_spans_rebuild_parent (w s : ℕ) (parents : List (List String))
    (hs : 0 < s) (hsw : s ≤ w)
    (pc : List String × List (List String)) (hpc : pc ∈ chunkDoc w s parents) :
    (∀ ch ∈ pc.2, ∃ i n, ch = (pc.1.drop i).take n) ∧
    overlapJoin (w - s) pc.2 = pc.1 := by
  obtain ⟨p, hp, heq⟩ := List.mem_map.mp hpc
  subst heq
  exact ⟨fun ch hch => slideChildrenAux_span w s p.length p ch hch,
         overlapJoin_slideChildren w s hs hsw p⟩

/-- Witness for C5: window 3 with stride 2 (overlap 1) over a four-token
parent yields children that are sub-spans and rebuild the parent. -/
theorem chunker_child_spans_rebuild_parent_witness :
    0 < 2 ∧ 2 ≤ 3 ∧
    ((demoParentToks, slideChildren 3 2 demoParentToks) ∈ chunkDoc 3 2 [demoParentToks]) ∧
    overlapJoin 1 (slideChildren 3 2 demoParentToks) = demoParentToks ∧
    (∃ i n, ["target", "temperature"] = (demoParentToks.drop i).take n) :=
  ⟨by decide, by decide, by decide,
   (chunker_child_spans_rebuild_parent 3 2 [demoParentToks] (by decide) (by decide)
      (demoParentToks, slideChildren 3 2 demoParentToks) (by decide)).2,
   (chunker_child_spans_rebuild_parent 3 2 [demoParentToks] (by decide) (by decide)
      (demoParentToks, slideChildren 3 2 demoParentToks) (by decide)).1
      ["target", "temperature"] (by decide)⟩

-- ---------- C7 ----------

/-- C7: a query against an empty (or never built) index returns the explicit
no-knowledge result and never an answer, empty or otherwise. -/
theorem empty_index_query_no_knowledge (embedQ : String → List Int)
    (synth : String → List ℕ → String) (k : ℚ) (parentOf ptoks : ℕ → ℕ)
    (budget : ℕ) (idx : QueryIndex) (q : String)
    (hd : idx.dense = []) (hsp : idx.sparse = []) :
    queryKB embedQ synth k parentOf ptoks budget idx q = QueryResult.noKnowledge ∧
    ∀ (txt : String) (cits : List ℕ),
      queryKB embedQ synth k parentOf ptoks budget idx q ≠ QueryResult.answer txt cits := by
  obtain ⟨d, sp⟩ := idx
  simp only at hd hsp
  subst hd
  subst hsp
  have h : queryKB embedQ synth k parentOf ptoks budget ⟨[], []⟩ q =
      QueryResult.noKnowledge := rfl
  exact ⟨h, fun txt cits hne => by rw [h] at hne; exact QueryResult.noConfusion hne⟩

/-- Witness for C7: the concrete empty index yields the no-knowledge result
for a concrete query. -/
theorem empty_index_query_no_knowledge_witness :
    queryKB demoEmbedQ demoSynth 60 demoParentOf demoPtoks 1000 ⟨[], []⟩ "Z3 temperature" =
      QueryResult.noKnowledge ∧
    queryKB demoEmbedQ demoSynth 60 demoParentOf demoPtoks 1000 ⟨[], []⟩ "Z3 temperature" ≠
      QueryResult.answer "no sources" [] :=
  ⟨(empty_index_query_no_knowledge demoEmbedQ demoSynth 60 demoParentOf demoPtoks 1000
      ⟨[], []⟩ "Z3 temperature" rfl rfl).1,
   (empty_index_query_no_knowledge demoEmbedQ demoSynth 60 demoParentOf demoPtoks 1000
      ⟨[], []⟩ "Z3 temperature" rfl rfl).2 "no sources" []⟩

-- ---------- Index Builder lemmas ----------

theorem ingestDoc_dense (embed : String → Option (List Int)) (st : KBStore) (d : Doc) :
    (ingestDoc embed st d).dense = st.dense ++ denseAdd embed d := by
  cases h : embedChunks embed d.chunkTexts with
  | none => simp [ingestDoc, denseAdd, h]
  | some vs => simp [ingestDoc, denseAdd, h]

theorem ingestDoc_sparse (embed : String → Option (List Int)) (st : KBStore) (d : Doc) :
    (ingestDoc embed st d).sparse = st.sparse ++ sparseAdd embed d := by
  cases h : embedChunks embed d.chunkTexts with
  | none => simp [ingestDoc, sparseAdd, h]
  | some vs => simp [ingestDoc, sparseAdd, h]

theorem ingestDoc_indexed (embed : String → Option (List Int)) (st : KBStore) (d : Doc) :
    (ingestDoc embed st d).indexedDocs = st.indexedDocs ++
      (if (embedChunks embed d.chunkTexts).isSome then [d.id] else []) := by
  cases h : embedChunks embed d.chunkTexts with
  | none => simp [ingestDoc, h]
  | some vs => simp [ingestDoc, h]

theorem ingestDoc_failed (embed : String → Option (List Int)) (st : KBStore) (d : Doc) :
    (ingestDoc embed st d).failedDocs = st.failedDocs ++
      (if (embedChunks embed d.chunkTexts).isSome then [] else [d.id]) := by
  cases h : embedChunks embed d.chunkTexts with
  | none => simp [ingestDoc, h]
  | some vs => simp [ingestDoc, h]

theorem ingestBatch_dense (embed : String → Option (List Int)) :
    ∀ (docs : List Doc) (st : KBStore),
      (ingestBatch embed st docs).dense = st.dense ++ (docs.map (denseAdd embed)).flatten := by
  intro docs
  induction docs with
  | nil => intro st; simp [ingestBatch]
  | cons d ds ih =>
    intro st
    have h1 : ingestBatch embed st (d :: ds) = ingestBatch embed (ingestDoc embed st d) ds := rfl
    rw [h1, ih (ingestDoc embed st d), ingestDoc_dense]
    simp [List.append_assoc]

theorem ingestBatch_sparse (embed : String → Option (List Int)) :
    ∀ (docs : List Doc) (st : KBStore),
      (ingestBatch embed st docs).sparse = st.sparse ++ (docs.map (sparseAdd embed)).flatten := by
  intro docs
  induction docs with
  | nil => intro st; simp [ingestBatch]
  | cons d ds ih =>
    intro st
    have h1 : ingestBatch embed st (d :: ds) = ingestBatch embed (ingestDoc embed st d) ds := rfl
    rw [h1, ih (ingestDoc embed st d), ingestDoc_sparse]
    simp [List.append_assoc]

theorem ingestBatch_failed (embed : String → Option (List Int)) :
    ∀ (docs : List Doc) (st : KBStore),
      (ingestBatch embed st docs).failedDocs = st.failedDocs ++
        docs.filterMap
          (fun d2 => if (embedChunks embed d2.chunkTexts).isSome then none else some d2.id) := by
  intro docs
  induction docs with
  | nil => intro st; simp [ingestBatch]
  | cons d ds ih =>
    intro st
    have h1 : ingestBatch embed st (d :: ds) = ingestBatch embed (ingestDoc embed st d) ds := rfl
    rw [h1, ih (ingestDoc embed st d), ingestDoc_failed]
    by_cases hd : (embedChunks embed d.chunkTexts).isSome
    · simp [hd, List.filterMap_cons]
    · simp [hd, List.filterMap_cons]

theorem ingestBatch_indexed (embed : String → Option (List Int)) :
    ∀ (docs : List Doc) (st : KBStore),
      (ingestBatch embed st docs).indexedDocs = st.indexedDocs ++
        docs.filterMap
          (fun d2 => if (embedChunks embed d2.chunkTexts).isSome then some d2.id else none) := by
  intro docs
  induction docs with
  | nil => intro st; simp [ingestBatch]
  | cons d ds ih =>
    intro st
    have h1 : ingestBatch embed st (d :: ds) = ingestBatch embed (ingestDoc embed st d) ds := rfl
    rw [h1, ih (ingestDoc embed st d), ingestDoc_indexed]
    by_cases hd : (embedChunks embed d.chunkTexts).isSome
    · simp [hd, List.filterMap_cons]
    · simp [hd, List.filterMap_cons]

theorem embedChunks_eq_none_iff (embed : String → Option (List Int)) :
    ∀ ts : List String, embedChunks embed ts = none ↔ ∃ t ∈ ts, embed t = none := by
  intro ts
  induction ts with
  | nil => simp [embedChunks]
  | cons t ts ih =>
    cases he : embed t with
    | none =>
      simp only [embedChunks, he]
      constructor
      · intro _; exact ⟨t, List.mem_cons_self t ts, he⟩
      · intro _; trivial
    | some v =>
      cases hr : embedChunks embed ts with
      | none =>
        simp only [embedChunks, he, hr]
        constructor
        · intro _
          obtain ⟨u, hu, hun⟩ := ih.mp hr
          exact ⟨u, List.mem_cons_of_mem t hu, hun⟩
        · intro _; trivial
      | some vs =>
        simp only [embedChunks, he, hr]
        constructor
        · intro h; exact absurd h (by simp)
        · rintro ⟨u, hu, hun⟩
          rcases List.mem_cons.mp hu with h | h
          · subst h; rw [he] at hun; exact absurd hun (by simp)
          · have := ih.mpr ⟨u, h, hun⟩
            rw [hr] at this
            exact absurd this (by simp)

theorem embedChunks_length (embed : String → Option (List Int)) :
    ∀ (ts : List String) (vs : List (List Int)),
      embedChunks embed ts = some vs → vs.length = ts.length := by
  intro ts
  induction ts with
  | nil =>
    intro vs h
    simp only [embedChunks, Option.some_inj] at h
    rw [← h]
    rfl
  | cons t ts ih =>
    intro vs h
    cases he : embed t with
    | none =>
      rw [embedChunks, he] at h
      exact absurd h (by simp)
    | some v =>
      cases hr : embedChunks embed ts with
      | none =>
        rw [embedChunks, he, hr] at h
        exact absurd h (by simp)
      | some ws =>
        rw [embedChunks, he, hr] at h
        simp only [Option.some_inj] at h
        rw [← h]
        simp [ih ws hr]

theorem chunkKeys_length (d : Doc) : (chunkKeys d).length = d.chunkTexts.length := by
  simp [chunkKeys]

theorem denseAdd_doc_id (embed : String → Option (List Int)) (d : Doc) :
    ∀ e ∈ denseAdd embed d, e.1.1 = d.id := by
  intro e he
  obtain ⟨key, v⟩ := e
  cases h : embedChunks embed d.chunkTexts with
  | none =>
    rw [denseAdd, h] at he
    simp at he
  | some vs =>
    rw [denseAdd, h] at he
    have h1 : key ∈ chunkKeys d := (List.of_mem_zip he).1
    obtain ⟨i, hi, hkey⟩ := List.mem_map.mp h1
    rw [← hkey]

theorem sparseAdd_doc_id (embed : String → Option (List Int)) (d : Doc) :
    ∀ e ∈ sparseAdd embed d, e.1.1 = d.id := by
  intro e he
  obtain ⟨key, v⟩ := e
  cases h : embedChunks embed d.chunkTexts with
  | none =>
    rw [sparseAdd, h] at he
    simp at he
  | some vs =>
    rw [sparseAdd, h] at he
    have h1 : key ∈ chunkKeys d := (List.of_mem_zip he).1
    obtain ⟨i, hi, hkey⟩ := List.mem_map.mp h1
    rw [← hkey]

theorem batch_id_inj :
    ∀ (docs : List Doc), (docs.map Doc.id).Nodup →
      ∀ a ∈ docs, ∀ b ∈ docs, a.id = b.id → a = b := by
  intro docs
  induction docs with
  | nil => intro _ a ha; simp at ha
  | cons c rest ih =>
    intro hnd a ha b hb hab
    rw [List.map_cons, List.nodup_cons] at hnd
    rcases List.mem_cons.mp ha with ha | ha <;> rcases List.mem_cons.mp hb with hb | hb
    · rw [ha, hb]
    · have hmm : a.id ∈ rest.map Doc.id := by
        rw [hab]
        exact List.mem_map_of_mem Doc.id hb
      rw [ha] at hmm
      exact absurd hmm hnd.1
    · have hmm : b.id ∈ rest.map Doc.id := by
        rw [← hab]
        exact List.mem_map_of_mem Doc.id ha
      rw [hb] at hmm
      exact absurd hmm hnd.1
    · exact ih hnd.2 a ha b hb hab

-- ---------- C3 ----------

/-- C3: when the embedding capability still fails for a document once retries
are exhausted, that document is marked failed for the run and the dense and
sparse stores are unchanged with respect to it (no partial chunk is left
indexed), while every other document of the batch whose chunks all embed is
indexed normally, with all of its chunks present in both stores. -/
theorem ingestion_embedding_failure_isolated
    (embed : String → Option (List Int)) (docs : List Doc) (st0 : KBStore) (d : Doc)
    (hmem : d ∈ docs)
    (hids : (docs.map Doc.id).Nodup)
    (hfail : ∃ t ∈ d.chunkTexts, embed t = none) :
    d.id ∈ (ingestBatch embed st0 docs).failedDocs ∧
    (ingestBatch embed st0 docs).dense.filter (fun e => e.1.1 = d.id) =
      st0.dense.filter (fun e => e.1.1 = d.id) ∧
    (ingestBatch embed st0 docs).sparse.filter (fun e => e.1.1 = d.id) =
      st0.sparse.filter (fun e => e.1.1 = d.id) ∧
    ∀ d2 ∈ docs, d2.id ≠ d.id → (∀ t ∈ d2.chunkTexts, (embed t).isSome) →
      d2.id ∈ (ingestBatch embed st0 docs).indexedDocs ∧
      ∀ key ∈ chunkKeys d2,
        key ∈ (ingestBatch embed st0 docs).dense.map Prod.fst ∧
        key ∈ (ingestBatch embed st0 docs).sparse.map Prod.fst := by
  have hnone : embedChunks embed d.chunkTexts = none :=
    (embedChunks_eq_none_iff embed d.chunkTexts).mpr hfail
  refine ⟨?_, ?_, ?_, ?_⟩
  · rw [ingestBatch_failed]
    apply List.mem_append_right
    exact List.mem_filterMap.mpr ⟨d, hmem, by simp [hnone]⟩
  · rw [ingestBatch_dense, List.filter_append]
    have hflat : ((docs.map (denseAdd embed)).flatten).filter
        (fun e => e.1.1 = d.id) = [] := by
      apply List.filter_eq_nil_iff.mpr
      intro e hef
      obtain ⟨ladd, hladd, he⟩ := List.mem_flatten.mp hef
      obtain ⟨d2, hd2, hl2⟩ := List.mem_map.mp hladd
      subst hl2
      have hid2 : e.1.1 = d2.id := denseAdd_doc_id embed d2 e he
      simp only [decide_eq_true_eq]
      intro hcontra
      have hd2d : d2 = d := batch_id_inj docs hids d2 hd2 d hmem (by rw [← hid2, hcontra])
      subst hd2d
      rw [denseAdd, hnone] at he
      simp at he
    rw [hflat, List.append_nil]
  · rw [ingestBatch_sparse, List.filter_append]
    have hflat : ((docs.map (sparseAdd embed)).flatten).filter
        (fun e => e.1.1 = d.id) = [] := by
      apply List.filter_eq_nil_iff.mpr
      intro e hef
      obtain ⟨ladd, hladd, he⟩ := List.mem_flatten.mp hef
      obtain ⟨d2, hd2, hl2⟩ := List.mem_map.mp hladd
      subst hl2
      have hid2 : e.1.1 = d2.id := sparseAdd_doc_id embed d2 e he
      simp only [decide_eq_true_eq]
      intro hcontra
      have hd2d : d2 = d := batch_id_inj docs hids d2 hd2 d hmem (by rw [← hid2, hcontra])
      subst hd2d
      rw [sparseAdd, hnone] at he
      simp at he
    rw [hflat, List.append_nil]
  · intro d2 hd2 hne hsucc
    have hsome : ∃ vs, embedChunks embed d2.chunkTexts = some vs := by
      cases h : embedChunks embed d2.chunkTexts with
      | none =>
        obtain ⟨t, ht, htn⟩ := (embedChunks_eq_none_iff embed d2.chunkTexts).mp h
        have hcontra := hsucc t ht
        rw [htn] at hcontra
        simp at hcontra
      | some vs => exact ⟨vs, rfl⟩
    obtain ⟨vs, hvs⟩ := hsome
    refine ⟨?_, ?_⟩
    · rw [ingestBatch_indexed]
      apply List.mem_append_right
      exact List.mem_filterMap.mpr ⟨d2, hd2, by simp [hvs]⟩
    · intro key hkey
      have hlen : (chunkKeys d2).length ≤ vs.length := by
        rw [chunkKeys_length, embedChunks_length embed d2.chunkTexts vs hvs]
      have hdadd : denseAdd embed d2 = (chunkKeys d2).zip vs := by
        simp [denseAdd, hvs]
      have hsadd : sparseAdd embed d2 =
          (chunkKeys d2).zip (d2.chunkTexts.map sparseTerms) := by
        simp [sparseAdd, hvs]
      have hslen : (chunkKeys d2).length ≤ (d2.chunkTexts.map sparseTerms).length := by
        simp [chunkKeys_length]
      have hkdense : key ∈ (denseAdd embed d2).map Prod.fst := by
        rw [hdadd, List.map_fst_zip _ _ hlen]
        exact hkey
      have hksparse : key ∈ (sparseAdd embed d2).map Prod.fst := by
        rw [hsadd, List.map_fst_zip _ _ hslen]
        exact hkey
      constructor
      · rw [ingestBatch_dense, List.map_append]
        apply List.mem_append_right
        obtain ⟨e, he, hek⟩ := List.mem_map.mp hkdense
        exact List.mem_map.mpr
          ⟨e, List.mem_flatten.mpr ⟨denseAdd embed d2, List.mem_map_of_mem _ hd2, he⟩, hek⟩
      · rw [ingestBatch_sparse, List.map_append]
        apply List.mem_append_right
        obtain ⟨e, he, hek⟩ := List.mem_map.mp hksparse
        exact List.mem_map.mpr
          ⟨e, List.mem_flatten.mpr ⟨sparseAdd embed d2, List.mem_map_of_mem _ hd2, he⟩, hek⟩

/-- Witness for C3: a three-document batch where the middle document has an
embedding failure; the failing document lands in the failure record and a
healthy document of the batch is indexed. -/
theorem ingestion_embedding_failure_isolated_witness :
    demoDocBad ∈ demoDocs ∧
    (demoDocs.map Doc.id).Nodup ∧
    (∃ t ∈ demoDocBad.chunkTexts, demoEmbed t = none) ∧
    demoDocBad.id ∈ (ingestBatch demoEmbed emptyKBStore demoDocs).failedDocs ∧
    (2 : ℕ) ∈ (ingestBatch demoEmbed emptyKBStore demoDocs).indexedDocs :=
  ⟨by decide, by decide, ⟨"bad", by decide, by decide⟩,
   (ingestion_embedding_failure_isolated demoEmbed demoDocs emptyKBStore demoDocBad
      (by decide) (by decide) ⟨"bad", by decide, by decide⟩).1,
   ((ingestion_embedding_failure_isolated demoEmbed demoDocs emptyKBStore demoDocBad
      (by decide) (by decide) ⟨"bad", by decide, by decide⟩).2.2.2
      ⟨2, ["gamma", "delta"]⟩ (by decide) (by decide) (by decide)).1⟩
